import Mathlib

/-!
Verification of the move-decision engine of the AI Chess Master repository.

The engine (source: the ChessGame component) performs depth-limited minimax
with alpha-beta pruning over legal moves supplied by a black-box rules engine
(chess.js in the original), scores positions with a material-plus-terminal
evaluator, adds an endgame-pattern bonus at the root, and falls back from an
opening book to search.  The rules engine is out of scope per the spec, so it
is modelled as an abstract interface: a structure of operations over opaque
position and move types, exactly the operations the source consumes
(enumerate legal moves, apply a move, apply a move given in algebraic
notation, query a square, terminal-state flags).  All engine code
(evaluateBoard, minimax, getEndgameBonus, the root selection loop of
makeAIMove) is translated from the source; mutation of the shared live
position is modelled separately as explicit state passing (a current
position plus an undo history stack) to settle the make/undo discipline.
-/

/-- Piece colors as used by the rules engine (chess.js reports w or b). -/
inductive Color where
  | white
  | black
deriving DecidableEq

/-- Piece types as used by the rules engine and the evaluator constants. -/
inductive PieceType where
  | p
  | n
  | b
  | r
  | q
  | k
deriving DecidableEq

/-- A piece occupying a square: its type and color. -/
structure Piece where
  type : PieceType
  color : Color
deriving DecidableEq

/-- Difficulty setting, one of three values. -/
inductive Difficulty where
  | easy
  | intermediate
  | hard
deriving DecidableEq

/-- Source: difficultyDepth maps easy to 1, intermediate to 2, hard to 3. -/
def difficultyDepth : Difficulty → Nat
  | Difficulty.easy => 1
  | Difficulty.intermediate => 2
  | Difficulty.hard => 3

/-- An endgame pattern entry: an identifier string and a piece-type set.
Source: the endgamePatterns catalog. -/
structure EPattern where
  pattern : String
  pieces : List String

/-- Source: endgamePatterns catalog by difficulty. -/
def endgamePatterns : Difficulty → List EPattern
  | Difficulty.easy =>
      [⟨"rook_king_mate", ["k", "r", "K"]⟩,
       ⟨"queen_mate", ["k", "q", "K"]⟩]
  | Difficulty.intermediate =>
      [⟨"two_bishops_mate", ["k", "b", "b", "K"]⟩,
       ⟨"rook_bishop_mate", ["k", "r", "b", "K"]⟩]
  | Difficulty.hard =>
      [⟨"queen_knight_mate", ["k", "q", "n", "K"]⟩,
       ⟨"rook_knight_mate", ["k", "r", "n", "K"]⟩]

/-- Decides whether the character list pat occurs as a contiguous sublist of
l; used to model the JavaScript String.includes test on pattern names. -/
def listContainsSub (pat : List Char) : List Char → Bool
  | [] => pat.isEmpty
  | c :: rest => pat.isPrefixOf (c :: rest) || listContainsSub pat rest

/-- Models JavaScript s.includes(pat). -/
def strIncludes (s pat : String) : Bool :=
  listContainsSub pat.data s.data

/-- The four central squares d4, d5, e4, e5 in (file index, rank index)
coordinates, where square a1 is (0, 0).  Source: centralSquares in
getEndgameBonus, in source order. -/
def centralSquares : List (Nat × Nat) := [(3, 3), (3, 4), (4, 3), (4, 4)]

/-- Source: the pieceValues table of evaluateBoard. -/
def pieceValue : PieceType → Int
  | PieceType.p => 100
  | PieceType.n => 320
  | PieceType.b => 330
  | PieceType.r => 500
  | PieceType.q => 900
  | PieceType.k => 20000

/-- Source: the pawnPositionBonus piece-square table of evaluateBoard,
rows in source order. -/
def pawnPositionBonus : List (List Int) :=
  [[0,  0,  0,  0,  0,  0,  0,  0],
   [50, 50, 50, 50, 50, 50, 50, 50],
   [10, 10, 20, 30, 30, 20, 10, 10],
   [5,  5, 10, 25, 25, 10,  5,  5],
   [0,  0,  0, 20, 20,  0,  0,  0],
   [5, -5, -10, 0,  0, -10, -5,  5],
   [5, 10, 10, -20, -20, 10, 10,  5],
   [0,  0,  0,  0,  0,  0,  0,  0]]

/-- Entry of the pawn piece-square table at row r, column i
(as pawnPositionBonus[r][i] in the source; 0 when out of range). -/
def pawnRow (r i : Nat) : Int :=
  (pawnPositionBonus.getD r []).getD i 0

/-- The rules-engine interface consumed by the core, per the spec an
external black-box collaborator.  P is the opaque position type, M the
move-object type.  The operations are exactly those the source calls on a
chess.js instance: moves() enumeration, move(m) application, move(san)
application by algebraic notation (none models the thrown exception or null
result on an illegal move), square lookup get(square), and the
terminal-state queries. -/
structure RulesEngine (P M : Type) where
  moves : P → List M
  move : P → M → P
  san : M → String
  sanMove : P → String → Option M
  get : P → Nat → Nat → Option Piece
  isCheck : P → Bool
  isCheckmate : P → Bool
  isDraw : P → Bool
  isGameOver : P → Bool

section Engine

variable {P M : Type} (E : RulesEngine P M)

/-- Source: isEndgame counts occupied squares via
position.board().flat().filter(piece different from null).length; modelled
by scanning all 64 squares through the engine's square lookup. -/
def countPieces (pos : P) : Nat :=
  (List.range 8).foldl (fun n i =>
    (List.range 8).foldl (fun n j =>
      n + (if (E.get pos i j).isSome then 1 else 0)) n) 0

/-- The contribution of one square to evaluateBoard: base piece value, plus
for pawns the piece-square bonus at row 7 - j for White and row j for Black,
the total multiplied by +1 for White and -1 for Black.  Source: the loop
body of evaluateBoard. -/
def codeTerm (o : Option Piece) (i j : Nat) : Int :=
  match o with
  | none => 0
  | some pc =>
    (pieceValue pc.type +
      (if pc.type = PieceType.p then
        pawnRow (if pc.color = Color.white then 7 - j else j) i
      else 0))
    * (if pc.color = Color.white then 1 else -1)

/-- Source: evaluateBoard.  Nested loop over files i and ranks j (square
names char(97 + i) ++ toString (j + 1)), then the flat strategic terms:
+50 if in check, +10000 if checkmate, +0 if drawn. -/
def evaluateBoard (pos : P) : Int :=
  ((List.range 8).foldl (fun total i =>
    (List.range 8).foldl (fun total j =>
      total + codeTerm (E.get pos i j) i j) total) 0)
  + (if E.isCheck pos then 50 else 0)
  + (if E.isCheckmate pos then 10000 else 0)
  + (if E.isDraw pos then 0 else 0)

/-- Source: getEndgameBonus.  Returns 0 unless the position has at most 10
pieces; otherwise, for each pattern of the difficulty's catalog, re-applies
the candidate move's algebraic notation to a copy of the given position
(skipping the pattern when the rules engine rejects it, as the try/catch
does), then adds 500 for checkmate or 200 for check when the pattern name
contains "mate", plus 50 for each central square occupied by a Black piece.
Note the source passes this function the position with the candidate move
already applied. -/
def getEndgameBonus (D : Difficulty) (position : P) (moveObj : M) : Int :=
  if countPieces E position ≤ 10 then
    (endgamePatterns D).foldl (fun bonus pat =>
      match E.sanMove position (E.san moveObj) with
      | none => bonus
      | some mv =>
        let tempGame := E.move position mv
        let b1 : Int :=
          if strIncludes pat.pattern "mate" then
            if E.isCheckmate tempGame then bonus + 500
            else if E.isCheck tempGame then bonus + 200
            else bonus
          else bonus
        centralSquares.foldl (fun b sq =>
          match E.get tempGame sq.1 sq.2 with
          | some pc => if pc.color = Color.black then b + 50 else b
          | none => b) b1) 0
  else 0

/-- The maximizing loop of minimax: fold over the legal moves keeping the
running maximum, raising alpha, and breaking out as soon as beta is at most
alpha (the alpha-beta cutoff).  f is the recursive search call on the child
position. -/
def goMaxF (f : P → Int → Int → Int) (pos : P) :
    List M → Int → Int → Int → Int
  | [], maxEval, _, _ => maxEval
  | m :: rest, maxEval, alpha, beta =>
    let evaluation := f (E.move pos m) alpha beta
    let maxEval' := max maxEval evaluation
    let alpha' := max alpha evaluation
    if beta ≤ alpha' then maxEval' else goMaxF f pos rest maxEval' alpha' beta

/-- The minimizing loop of minimax: running minimum, lowering beta, cutoff
when beta is at most alpha. -/
def goMinF (f : P → Int → Int → Int) (pos : P) :
    List M → Int → Int → Int → Int
  | [], minEval, _, _ => minEval
  | m :: rest, minEval, alpha, beta =>
    let evaluation := f (E.move pos m) alpha beta
    let minEval' := min minEval evaluation
    let beta' := min beta evaluation
    if beta' ≤ alpha then minEval' else goMinF f pos rest minEval' alpha beta'

/-- Source: minimax with alpha-beta pruning.  Depth 0 evaluates the board;
otherwise the maximizing branch starts from -9999 and the minimizing branch
from 9999, recursing at depth - 1 with the player flag flipped. -/
def minimax : Nat → P → Bool → Int → Int → Int
  | 0, pos, _, _, _ => evaluateBoard E pos
  | d + 1, pos, true, alpha, beta =>
      goMaxF E (fun p a b => minimax d p false a b) pos (E.moves pos)
        (-9999) alpha beta
  | d + 1, pos, false, alpha, beta =>
      goMinF E (fun p a b => minimax d p true a b) pos (E.moves pos)
        9999 alpha beta

/-- Exhaustive depth-limited minimax: the same recursion with the pruning
break removed (alpha and beta then influence nothing and are dropped). -/
def minimaxPlain : Nat → P → Bool → Int
  | 0, pos, _ => evaluateBoard E pos
  | d + 1, pos, true =>
      (E.moves pos).foldl
        (fun acc m => max acc (minimaxPlain d (E.move pos m) false)) (-9999)
  | d + 1, pos, false =>
      (E.moves pos).foldl
        (fun acc m => min acc (minimaxPlain d (E.move pos m) true)) 9999

/-- The aggregated root score of one candidate move: the source applies the
move to the live position, then computes
minimax(game, depth - 1, false, -10000, 10000) + getEndgameBonus(game, move)
on that post-move position. -/
def rootScore (D : Difficulty) (pos : P) (mv : M) : Int :=
  minimax E (difficultyDepth D - 1) (E.move pos mv) false (-10000) 10000
  + getEndgameBonus E D (E.move pos mv) mv

/-- The root selection fold of makeAIMove: bestMove starts null, bestValue
starts -9999, and the running best is replaced whenever value is at least
bestValue. -/
def pickBest (score : M → Int) (ms : List M) : Option M × Int :=
  ms.foldl (fun acc mv =>
    if acc.2 ≤ score mv then (some mv, score mv) else acc)
    ((none : Option M), (-9999 : Int))

/-- Search-based move selection: the root loop of makeAIMove over the legal
moves, returning bestMove (none when no move ever reached bestValue). -/
def searchSelect (D : Difficulty) (pos : P) : Option M :=
  (pickBest (rootScore E D pos) (E.moves pos)).1

/-- The maximal aggregated root score over the legal moves, seeded with the
source's initial bestValue of -9999. -/
def bestValue (D : Difficulty) (pos : P) : Int :=
  (E.moves pos).foldl (fun a mv => max a (rootScore E D pos mv)) (-9999)

/-- Source: makeAIMove as a move selector.  Returns none when the game is
over, drawn, or without legal moves; otherwise tries the opening book entry
at the current move count (played directly when the rules engine accepts
it), and falls back to the search-based selection. -/
def chooseMove (D : Difficulty) (pos : P) (moveCount : Nat)
    (line : List String) : Option M :=
  if E.isGameOver pos || E.isDraw pos || (E.moves pos).isEmpty then none
  else
    match (if moveCount < line.length then
            E.sanMove pos (line.getD moveCount "")
          else none) with
    | some m => some m
    | none => searchSelect E D pos

/-- The shared live position as mutable state: the current position plus the
undo history stack maintained by the rules engine. -/
def smove (s : P × List P) (m : M) : P × List P :=
  (E.move s.1 m, s.1 :: s.2)

/-- position.undo(): pop the history stack, restoring the previous position
(a no-op on an empty history, as in chess.js). -/
def sundo : P × List P → P × List P
  | (c, []) => (c, [])
  | (_, h :: t) => (h, t)

/-- Stateful maximizing loop: apply the move to the shared position, recurse,
undo, then update the running maximum and alpha and possibly break — the
exact statement order of the source loop. -/
def goMaxS (f : P × List P → Int → Int → Int × (P × List P)) :
    P × List P → List M → Int → Int → Int → Int × (P × List P)
  | s, [], maxEval, _, _ => (maxEval, s)
  | s, m :: rest, maxEval, alpha, beta =>
    let r := f (smove E s m) alpha beta
    let s2 := sundo r.2
    let maxEval' := max maxEval r.1
    let alpha' := max alpha r.1
    if beta ≤ alpha' then (maxEval', s2)
    else goMaxS f s2 rest maxEval' alpha' beta

/-- Stateful minimizing loop, symmetric to goMaxS. -/
def goMinS (f : P × List P → Int → Int → Int × (P × List P)) :
    P × List P → List M → Int → Int → Int → Int × (P × List P)
  | s, [], minEval, _, _ => (minEval, s)
  | s, m :: rest, minEval, alpha, beta =>
    let r := f (smove E s m) alpha beta
    let s2 := sundo r.2
    let minEval' := min minEval r.1
    let beta' := min beta r.1
    if beta' ≤ alpha then (minEval', s2)
    else goMinS f s2 rest minEval' alpha beta'

/-- Source: minimax operating on the shared live position, with the
move/undo pair made explicit as state transitions. -/
def minimaxS : Nat → P × List P → Bool → Int → Int → Int × (P × List P)
  | 0, s, _, _, _ => (evaluateBoard E s.1, s)
  | d + 1, s, true, alpha, beta =>
      goMaxS E (fun s' a b => minimaxS d s' false a b) s (E.moves s.1)
        (-9999) alpha beta
  | d + 1, s, false, alpha, beta =>
      goMinS E (fun s' a b => minimaxS d s' true a b) s (E.moves s.1)
        9999 alpha beta

/-- Sign of a color, per the spec: +1 for White, -1 for Black. -/
def colorSign : Color → Int
  | Color.white => 1
  | Color.black => -1

/-- Piece-square table row per the spec's words: indexed by
rank-from-own-perspective, the table mirrored vertically for Black. -/
def specPawnRowIndex (c : Color) (j : Nat) : Nat :=
  match c with
  | Color.white => 7 - j
  | Color.black => 7 - (7 - j)

/-- One square's contribution per the spec's words: pieceValue(type) times
sign(color), plus for pawns the sign-adjusted piece-square bonus. -/
def specTerm (o : Option Piece) (i j : Nat) : Int :=
  match o with
  | none => 0
  | some pc =>
    colorSign pc.color *
      (pieceValue pc.type +
        (if pc.type = PieceType.p then
          pawnRow (specPawnRowIndex pc.color j) i
        else 0))

/-- Modelled from the spec (claim C4): the evaluator as the spec states it —
the sum over occupied squares of the signed material and pawn-table terms,
plus a flat +50 when in check and a flat +10000 when checkmated, with a draw
contributing 0. -/
def evaluateSpec (pos : P) : Int :=
  ((List.range 8).map (fun i =>
    ((List.range 8).map (fun j => specTerm (E.get pos i j) i j)).sum)).sum
  + (if E.isCheck pos then 50 else 0)
  + (if E.isCheckmate pos then 10000 else 0)

end Engine

/-- Square lookup in a finite board description: a list of
(file index, rank index, piece) entries. -/
def lookupBoard (bd : List (Nat × Nat × Piece)) (i j : Nat) : Option Piece :=
  (bd.find? (fun e => e.1 == i && e.2.1 == j)).map (fun e => e.2.2)

/-- Board with kings on g1 and g8, a white rook on a8, black pawns on f7,
g7, h7: a back-rank-mate shape with material total 175 for White. -/
def boardMateA : List (Nat × Nat × Piece) :=
  [(6, 0, ⟨PieceType.k, Color.white⟩),
   (0, 7, ⟨PieceType.r, Color.white⟩),
   (6, 7, ⟨PieceType.k, Color.black⟩),
   (5, 6, ⟨PieceType.p, Color.black⟩),
   (6, 6, ⟨PieceType.p, Color.black⟩),
   (7, 6, ⟨PieceType.p, Color.black⟩)]

/-- boardMateA plus an extra white queen on a1 (material total 1075). -/
def boardMateB : List (Nat × Nat × Piece) :=
  (0, 0, ⟨PieceType.q, Color.white⟩) :: boardMateA

/-- Concrete rules-engine instance for the pruning counterexample: from the
root (position 0) two moves lead to positions 1 and 2, both flagged
checkmate-and-check by the rules engine, with evaluations 10225 and 11125;
position 3 has no legal moves.  Positions are labelled by numbers and moves
by their target position. -/
def CEx : RulesEngine Nat Nat where
  moves := fun p => if p = 0 then [1, 2] else []
  move := fun _ m => m
  san := fun _ => "x"
  sanMove := fun _ _ => none
  get := fun p i j =>
    if p = 1 then lookupBoard boardMateA i j
    else if p = 2 then lookupBoard boardMateB i j
    else none
  isCheck := fun p => p == 1 || p == 2
  isCheckmate := fun p => p == 1 || p == 2
  isDraw := fun _ => false
  isGameOver := fun _ => false

/-- A single white pawn on a2. -/
def boardOnePawn : List (Nat × Nat × Piece) :=
  [(0, 1, ⟨PieceType.p, Color.white⟩)]

/-- Concrete engine with two root moves of distinct scores (105 and 0), no
book acceptance, and a moveless position 1-free region: used to witness
legality of the selected move, the book fallback, and the no-move sentinel.
Position 0 has moves to 1 and 2; every other position has none. -/
def E3 : RulesEngine Nat Nat where
  moves := fun p => if p = 0 then [1, 2] else []
  move := fun _ m => m
  san := fun _ => "x"
  sanMove := fun _ _ => none
  get := fun p i j => if p = 1 then lookupBoard boardOnePawn i j else none
  isCheck := fun _ => false
  isCheckmate := fun _ => false
  isDraw := fun _ => false
  isGameOver := fun _ => false

/-- A 17-piece board: lone white king against a black army with nine queens
(eight promoted pawns plus the original), two rooks, two bishops and two
knights — a legal chess material distribution evaluating to -10400,
strictly below the -9999 seed of the root selection loop. -/
def boardBlackArmy : List (Nat × Nat × Piece) :=
  [(0, 0, ⟨PieceType.k, Color.white⟩),
   (7, 7, ⟨PieceType.k, Color.black⟩),
   (0, 7, ⟨PieceType.q, Color.black⟩),
   (1, 7, ⟨PieceType.q, Color.black⟩),
   (2, 7, ⟨PieceType.q, Color.black⟩),
   (3, 7, ⟨PieceType.q, Color.black⟩),
   (4, 7, ⟨PieceType.q, Color.black⟩),
   (5, 7, ⟨PieceType.q, Color.black⟩),
   (6, 7, ⟨PieceType.q, Color.black⟩),
   (0, 6, ⟨PieceType.q, Color.black⟩),
   (1, 6, ⟨PieceType.q, Color.black⟩),
   (2, 6, ⟨PieceType.r, Color.black⟩),
   (3, 6, ⟨PieceType.r, Color.black⟩),
   (4, 6, ⟨PieceType.b, Color.black⟩),
   (5, 6, ⟨PieceType.b, Color.black⟩),
   (6, 6, ⟨PieceType.n, Color.black⟩),
   (7, 6, ⟨PieceType.n, Color.black⟩)]

/-- Concrete engine where both root moves score -10400, below the -9999
seed: two equal-maximal moves yet the selector returns none. -/
def E5 : RulesEngine Nat Nat where
  moves := fun p => if p = 0 then [1, 2] else []
  move := fun _ m => m
  san := fun _ => "x"
  sanMove := fun _ _ => none
  get := fun p i j => if p = 0 then none else lookupBoard boardBlackArmy i j
  isCheck := fun _ => false
  isCheckmate := fun _ => false
  isDraw := fun _ => false
  isGameOver := fun _ => false

/-- Concrete engine with two root moves of equal score 0 (empty boards
everywhere): a tie above the seed, for witnessing the last-move tie-break. -/
def E5w : RulesEngine Nat Nat where
  moves := fun p => if p = 0 then [1, 2] else []
  move := fun _ m => m
  san := fun _ => "x"
  sanMove := fun _ _ => none
  get := fun _ _ _ => none
  isCheck := fun _ => false
  isCheckmate := fun _ => false
  isDraw := fun _ => false
  isGameOver := fun _ => false

/-- Concrete engine with exactly one legal move at the root, whose score
-10400 lies below the -9999 seed; the game is not over. -/
def E6 : RulesEngine Nat Nat where
  moves := fun p => if p = 0 then [1] else []
  move := fun _ m => m
  san := fun _ => "x"
  sanMove := fun _ _ => none
  get := fun p i j => if p = 0 then none else lookupBoard boardBlackArmy i j
  isCheck := fun _ => false
  isCheckmate := fun _ => false
  isDraw := fun _ => false
  isGameOver := fun _ => false

/-- A 9-piece mating position: white king e1, rook g1, queen h7 against
black king h8 with pawns a7 to e7; flagged checkmate by the engine. -/
def boardNineMate : List (Nat × Nat × Piece) :=
  [(4, 0, ⟨PieceType.k, Color.white⟩),
   (6, 0, ⟨PieceType.r, Color.white⟩),
   (7, 6, ⟨PieceType.q, Color.white⟩),
   (7, 7, ⟨PieceType.k, Color.black⟩),
   (0, 6, ⟨PieceType.p, Color.black⟩),
   (1, 6, ⟨PieceType.p, Color.black⟩),
   (2, 6, ⟨PieceType.p, Color.black⟩),
   (3, 6, ⟨PieceType.p, Color.black⟩),
   (4, 6, ⟨PieceType.p, Color.black⟩)]

/-- Concrete engine for the endgame-bonus claim: the root's single candidate
move leads to position 1, a 9-piece checkmate; re-applying the move's
algebraic notation there is rejected (it is the opponent's turn and the
position is terminal), exactly as chess.js would. -/
def E7 : RulesEngine Nat Nat where
  moves := fun p => if p = 0 then [1] else []
  move := fun _ m => m
  san := fun _ => "Qh7"
  sanMove := fun _ _ => none
  get := fun p i j => if p = 1 then lookupBoard boardNineMate i j else none
  isCheck := fun p => p == 1
  isCheckmate := fun p => p == 1
  isDraw := fun _ => false
  isGameOver := fun _ => false

section Proofs

variable {P M : Type} (E : RulesEngine P M)

/-- The seed of a maximum fold is at most the fold. -/
theorem le_foldl_max {M : Type} (h : M → Int) :
    ∀ (ms : List M) (x : Int), x ≤ ms.foldl (fun a m => max a (h m)) x := by
  intro ms
  induction ms with
  | nil => intro x; simp
  | cons m rest ih =>
    intro x
    simp only [List.foldl_cons]
    exact le_trans (le_max_left _ _) (ih _)

/-- A minimum fold is at most its seed. -/
theorem foldl_min_le {M : Type} (h : M → Int) :
    ∀ (ms : List M) (x : Int), ms.foldl (fun a m => min a (h m)) x ≤ x := by
  intro ms
  induction ms with
  | nil => intro x; simp
  | cons m rest ih =>
    intro x
    simp only [List.foldl_cons]
    exact le_trans (ih _) (min_le_left _ _)

/-- Fail-soft invariant of the maximizing alpha-beta loop: assuming the
recursive call f brackets the exhaustive child value g between
min beta and max alpha, the loop result brackets the exhaustive running
maximum the same way, for any pair of accumulators already so bracketed. -/
theorem goMaxF_sandwich (f : P → Int → Int → Int) (g : P → Int) (pos : P)
    (beta : Int)
    (hf : ∀ p a, a < beta → min beta (g p) ≤ f p a beta ∧ f p a beta ≤ max a (g p)) :
    ∀ (ms : List M) (meA meP alpha : Int), alpha < beta →
      min beta meP ≤ meA → meA ≤ max alpha meP →
      min beta (ms.foldl (fun acc m => max acc (g (E.move pos m))) meP)
          ≤ goMaxF E f pos ms meA alpha beta ∧
        goMaxF E f pos ms meA alpha beta
          ≤ max alpha (ms.foldl (fun acc m => max acc (g (E.move pos m))) meP) := by
  intro ms
  induction ms with
  | nil =>
    intro meA meP alpha hab h1 h2
    simp only [goMaxF, List.foldl_nil]
    exact ⟨h1, h2⟩
  | cons m rest ih =>
    intro meA meP alpha hab h1 h2
    obtain ⟨hev1, hev2⟩ := hf (E.move pos m) alpha hab
    simp only [goMaxF, List.foldl_cons]
    set v := g (E.move pos m) with hvdef
    set ev := f (E.move pos m) alpha beta with hevdef
    have hR := le_foldl_max (fun m' => g (E.move pos m')) rest (max meP v)
    by_cases hcut : beta ≤ max alpha ev
    · rw [if_pos hcut]
      constructor
      · omega
      · omega
    · rw [if_neg hcut]
      push_neg at hcut
      have hinv1 : min beta (max meP v) ≤ max meA ev := by omega
      have hinv2 : max meA ev ≤ max (max alpha ev) (max meP v) := by omega
      obtain ⟨ihlo, ihhi⟩ := ih (max meA ev) (max meP v) (max alpha ev) hcut hinv1 hinv2
      exact ⟨ihlo, by omega⟩

/-- Fail-soft invariant of the minimizing alpha-beta loop, symmetric to
goMaxF_sandwich. -/
theorem goMinF_sandwich (f : P → Int → Int → Int) (g : P → Int) (pos : P)
    (alpha : Int)
    (hf : ∀ p b, alpha < b → min b (g p) ≤ f p alpha b ∧ f p alpha b ≤ max alpha (g p)) :
    ∀ (ms : List M) (meA meP beta : Int), alpha < beta →
      min beta meP ≤ meA → meA ≤ max alpha meP →
      min beta (ms.foldl (fun acc m => min acc (g (E.move pos m))) meP)
          ≤ goMinF E f pos ms meA alpha beta ∧
        goMinF E f pos ms meA alpha beta
          ≤ max alpha (ms.foldl (fun acc m => min acc (g (E.move pos m))) meP) := by
  intro ms
  induction ms with
  | nil =>
    intro meA meP beta hab h1 h2
    simp only [goMinF, List.foldl_nil]
    exact ⟨h1, h2⟩
  | cons m rest ih =>
    intro meA meP beta hab h1 h2
    obtain ⟨hev1, hev2⟩ := hf (E.move pos m) beta hab
    simp only [goMinF, List.foldl_cons]
    set v := g (E.move pos m) with hvdef
    set ev := f (E.move pos m) alpha beta with hevdef
    have hR := foldl_min_le (fun m' => g (E.move pos m')) rest (min meP v)
    by_cases hcut : min beta ev ≤ alpha
    · rw [if_pos hcut]
      constructor
      · omega
      · omega
    · rw [if_neg hcut]
      push_neg at hcut
      have hinv1 : min (min beta ev) (min meP v) ≤ min meA ev := by omega
      have hinv2 : min meA ev ≤ max alpha (min meP v) := by omega
      obtain ⟨ihlo, ihhi⟩ := ih (min meA ev) (min meP v) (min beta ev) hcut hinv1 hinv2
      exact ⟨by omega, ihhi⟩

/-- Fail-soft correctness of the source's alpha-beta search: for any window
with alpha < beta, the pruned value is bracketed between
min beta and max alpha of the exhaustive minimax value.  In particular the
two agree whenever the exhaustive value lies strictly inside the window. -/
theorem minimax_sandwich :
    ∀ (d : Nat) (pos : P) (mx : Bool) (alpha beta : Int), alpha < beta →
      min beta (minimaxPlain E d pos mx) ≤ minimax E d pos mx alpha beta ∧
      minimax E d pos mx alpha beta ≤ max alpha (minimaxPlain E d pos mx) := by
  intro d
  induction d with
  | zero =>
    intro pos mx a b hab
    simp only [minimax, minimaxPlain]
    exact ⟨min_le_right _ _, le_max_right _ _⟩
  | succ d ih =>
    intro pos mx a b hab
    cases mx with
    | true =>
      simp only [minimax, minimaxPlain]
      exact goMaxF_sandwich E _ (fun p => minimaxPlain E d p false) pos b
        (fun p a' ha' => ih p false a' b ha')
        (E.moves pos) (-9999) (-9999) a hab (min_le_right _ _) (le_max_right _ _)
    | false =>
      simp only [minimax, minimaxPlain]
      exact goMinF_sandwich E _ (fun p => minimaxPlain E d p true) pos a
        (fun p b' hb' => ih p true a b' hb')
        (E.moves pos) 9999 9999 b hab (min_le_right _ _) (le_max_right _ _)

end Proofs

section Proofs2

variable {P M : Type} (E : RulesEngine P M)

/-- A fold accumulating sums equals the seed plus the sum of the mapped
list. -/
theorem foldl_add_map_sum (f : Nat → Int) :
    ∀ (l : List Nat) (x : Int),
      l.foldl (fun t j => t + f j) x = x + (l.map f).sum := by
  intro l
  induction l with
  | nil => intro x; simp
  | cons a l ih =>
    intro x
    simp only [List.foldl_cons, List.map_cons, List.sum_cons, ih]
    ring

/-- The nested accumulation loop of evaluateBoard equals the double sum of
its body. -/
theorem nested_foldl_eq (f : Nat → Nat → Int) :
    ∀ (l1 l2 : List Nat) (x : Int),
      l1.foldl (fun t i => l2.foldl (fun t j => t + f i j) t) x
        = x + (l1.map (fun i => ((l2.map (f i)).sum))).sum := by
  intro l1
  induction l1 with
  | nil => intro l2 x; simp
  | cons a l1 ih =>
    intro l2 x
    simp only [List.foldl_cons, List.map_cons, List.sum_cons]
    rw [foldl_add_map_sum (f a) l2 x, ih]
    ring

/-- Every entry of row 7 of the pawn table is 0. -/
theorem pawnRow_seven (i : Nat) : pawnRow 7 i = 0 := by
  rcases i with _ | _ | _ | _ | _ | _ | _ | _ | n <;>
    simp [pawnRow, pawnPositionBonus, List.getD]

/-- Rows past the table are 0. -/
theorem pawnRow_oob (r i : Nat) (h : 8 ≤ r) : pawnRow r i = 0 := by
  have hlen : pawnPositionBonus.length = 8 := rfl
  have hnil : pawnPositionBonus.getD r [] = [] :=
    List.getD_eq_default _ _ (le_trans (le_of_eq hlen) h)
  unfold pawnRow
  rw [hnil]
  simp

/-- The per-square term of the source evaluator agrees with the spec's
formulation of the same term. -/
theorem codeTerm_eq_specTerm (o : Option Piece) (i j : Nat) :
    codeTerm o i j = specTerm o i j := by
  cases o with
  | none => rfl
  | some pc =>
    obtain ⟨t, c⟩ := pc
    cases c with
    | white =>
      show (pieceValue t + (if t = PieceType.p then pawnRow (7 - j) i else 0)) * 1
          = 1 * (pieceValue t + (if t = PieceType.p then pawnRow (7 - j) i else 0))
      rw [mul_comm]
    | black =>
      have hrw : pawnRow j i = pawnRow (7 - (7 - j)) i := by
        by_cases hj : j ≤ 7
        · have h7 : 7 - (7 - j) = j := by omega
          rw [h7]
        · rw [pawnRow_oob j i (by omega)]
          have h7 : 7 - (7 - j) = 7 := by omega
          rw [h7, pawnRow_seven]
      show (pieceValue t + (if t = PieceType.p then pawnRow j i else 0)) * (-1)
          = (-1) * (pieceValue t + (if t = PieceType.p then pawnRow (7 - (7 - j)) i else 0))
      rw [hrw, mul_comm]

/-- State preservation of the stateful maximizing loop: when the recursive
call preserves the shared position state, so does the loop, on every exit
path including the pruning break. -/
theorem goMaxS_state (f : P × List P → Int → Int → Int × (P × List P))
    (hf : ∀ s a b, (f s a b).2 = s) :
    ∀ (ms : List M) (s : P × List P) (me a b : Int),
      (goMaxS E f s ms me a b).2 = s := by
  intro ms
  induction ms with
  | nil => intro s me a b; rfl
  | cons m rest ih =>
    intro s me a b
    simp only [goMaxS, hf]
    have hs : sundo (smove E s m) = s := by simp [smove, sundo]
    rw [hs]
    by_cases hcut : b ≤ max a (f (smove E s m) a b).1
    · rw [if_pos hcut]
    · rw [if_neg hcut]; exact ih s _ _ _

/-- State preservation of the stateful minimizing loop. -/
theorem goMinS_state (f : P × List P → Int → Int → Int × (P × List P))
    (hf : ∀ s a b, (f s a b).2 = s) :
    ∀ (ms : List M) (s : P × List P) (me a b : Int),
      (goMinS E f s ms me a b).2 = s := by
  intro ms
  induction ms with
  | nil => intro s me a b; rfl
  | cons m rest ih =>
    intro s me a b
    simp only [goMinS, hf]
    have hs : sundo (smove E s m) = s := by simp [smove, sundo]
    rw [hs]
    by_cases hcut : min b (f (smove E s m) a b).1 ≤ a
    · rw [if_pos hcut]
    · rw [if_neg hcut]; exact ih s _ _ _

end Proofs2

/-- A maximum fold either keeps its seed or attains the value of some list
element. -/
theorem foldl_max_cases {M : Type} (h : M → Int) :
    ∀ (ms : List M) (x : Int),
      ms.foldl (fun a m => max a (h m)) x = x ∨
      ∃ m ∈ ms, ms.foldl (fun a m => max a (h m)) x = h m := by
  intro ms
  induction ms with
  | nil => intro x; exact Or.inl rfl
  | cons m rest ih =>
    intro x
    simp only [List.foldl_cons]
    rcases ih (max x (h m)) with hc | ⟨m', hm', he⟩
    · by_cases hxm : h m ≤ x
      · left; rw [hc]; omega
      · right; exact ⟨m, List.mem_cons_self _ _, by rw [hc]; omega⟩
    · right; exact ⟨m', List.mem_cons_of_mem _ hm', he⟩

/-- When some element reaches the seed, the maximum fold is attained by a
list element. -/
theorem foldl_max_attained {M : Type} (h : M → Int) (ms : List M) (x : Int)
    (hex : ∃ m ∈ ms, x ≤ h m) :
    ∃ m ∈ ms, ms.foldl (fun a m => max a (h m)) x ≤ h m := by
  rcases foldl_max_cases h ms x with hc | ⟨m', hm', he⟩
  · obtain ⟨m0, hm0, hx⟩ := hex
    exact ⟨m0, hm0, by rw [hc]; exact hx⟩
  · exact ⟨m', hm', le_of_eq he⟩

/-- A maximum fold whose elements all stay at most the seed keeps the
seed. -/
theorem foldl_max_const {M : Type} (h : M → Int) :
    ∀ (ms : List M) (c : Int), (∀ x ∈ ms, h x ≤ c) →
      ms.foldl (fun a m => max a (h m)) c = c := by
  intro ms
  induction ms with
  | nil => intro c _; rfl
  | cons m rest ih =>
    intro c hall
    simp only [List.foldl_cons]
    rw [max_eq_left (hall m (List.mem_cons_self _ _))]
    exact ih c (fun x hx => hall x (List.mem_cons_of_mem _ hx))

/-- The selection fold never updates when every score stays strictly below
the running best value. -/
theorem pickBest_no_update {M : Type} (score : M → Int) :
    ∀ (ms : List M) (bm : Option M) (bv : Int),
      (∀ m ∈ ms, score m < bv) →
      ms.foldl (fun acc mv =>
        if acc.2 ≤ score mv then (some mv, score mv) else acc) (bm, bv)
        = (bm, bv) := by
  intro ms
  induction ms with
  | nil => intro bm bv _; rfl
  | cons m rest ih =>
    intro bm bv hall
    simp only [List.foldl_cons]
    rw [if_neg (not_le.mpr (hall m (List.mem_cons_self _ _)))]
    exact ih bm bv (fun x hx => hall x (List.mem_cons_of_mem _ hx))

/-- The selection fold only ever returns its initial move or a member of the
list. -/
theorem pickBest_mem {M : Type} (score : M → Int) :
    ∀ (ms : List M) (acc : Option M × Int) (m : M),
      (ms.foldl (fun a mv =>
        if a.2 ≤ score mv then (some mv, score mv) else a) acc).1 = some m →
      acc.1 = some m ∨ m ∈ ms := by
  intro ms
  induction ms with
  | nil => intro acc m h; exact Or.inl h
  | cons x rest ih =>
    intro acc m h
    simp only [List.foldl_cons] at h
    by_cases hc : acc.2 ≤ score x
    · rw [if_pos hc] at h
      rcases ih _ m h with h' | h'
      · right
        have : x = m := Option.some.inj h'
        rw [List.mem_cons]
        exact Or.inl this.symm
      · exact Or.inr (List.mem_cons_of_mem _ h')
    · rw [if_neg hc] at h
      rcases ih _ m h with h' | h'
      · exact Or.inl h'
      · exact Or.inr (List.mem_cons_of_mem _ h')

/-- The greater-or-equal replacement policy of the selection fold returns
the last move attaining the maximal score, as long as some score reaches the
seed. -/
theorem pickBest_go_last {M : Type} (score : M → Int) :
    ∀ (ms : List M) (bm : Option M) (bv : Int),
      (∃ m ∈ ms, bv ≤ score m) →
      (ms.foldl (fun acc mv =>
        if acc.2 ≤ score mv then (some mv, score mv) else acc) (bm, bv)).1
        = ms.reverse.find?
            (fun m => decide
              (ms.foldl (fun a mv => max a (score mv)) bv ≤ score m)) := by
  intro ms
  induction ms with
  | nil => intro bm bv hex; simp at hex
  | cons m rest ih =>
    intro bm bv hex
    simp only [List.foldl_cons, List.reverse_cons, List.find?_append]
    by_cases h1 : bv ≤ score m
    · rw [if_pos h1]
      simp only [max_eq_right h1]
      by_cases h2 : ∃ x ∈ rest, score m ≤ score x
      · rw [ih (some m) (score m) h2]
        have hs : (rest.reverse.find?
            (fun m' => decide
              (rest.foldl (fun a mv => max a (score mv)) (score m) ≤ score m'))).isSome := by
          rw [List.find?_isSome]
          obtain ⟨x, hx, hle⟩ := foldl_max_attained score rest (score m) h2
          exact ⟨x, List.mem_reverse.mpr hx, by simpa using hle⟩
        obtain ⟨r, hr⟩ := Option.isSome_iff_exists.mp hs
        rw [hr]
        rfl
      · push_neg at h2
        rw [pickBest_no_update score rest (some m) (score m) h2]
        simp only [foldl_max_const score rest (score m) (fun x hx => le_of_lt (h2 x hx))]
        have hnone : rest.reverse.find?
            (fun x => decide (score m ≤ score x)) = none := by
          rw [List.find?_eq_none]
          intro x hx
          simp only [decide_eq_true_eq]
          exact not_le.mpr (h2 x (List.mem_reverse.mp hx))
        rw [hnone]
        simp
    · rw [if_neg h1]
      push_neg at h1
      have hex' : ∃ x ∈ rest, bv ≤ score x := by
        obtain ⟨x, hx, hle⟩ := hex
        rcases List.mem_cons.mp hx with rfl | hx'
        · omega
        · exact ⟨x, hx', hle⟩
      rw [ih bm bv hex']
      simp only [max_eq_left (le_of_lt h1)]
      have hs : (rest.reverse.find?
          (fun m' => decide
            (rest.foldl (fun a mv => max a (score mv)) bv ≤ score m'))).isSome := by
        rw [List.find?_isSome]
        obtain ⟨x, hx, hle⟩ := foldl_max_attained score rest bv hex'
        exact ⟨x, List.mem_reverse.mpr hx, by simpa using hle⟩
      obtain ⟨r, hr⟩ := Option.isSome_iff_exists.mp hs
      rw [hr]
      rfl

/-- C1 (amended): the recursive search with alpha-beta pruning enabled and
root bounds alpha = -10000, beta = 10000 returns the same score as the
exhaustive depth-limited minimax with pruning disabled, provided the
exhaustive value lies strictly between those bounds; in general pruning can
clip values reaching the window boundary (see the counterexample). -/
theorem c1_alpha_beta_window_agreement {P M : Type} (E : RulesEngine P M)
    (d : Nat) (pos : P) (mx : Bool)
    (h1 : -10000 < minimaxPlain E d pos mx)
    (h2 : minimaxPlain E d pos mx < 10000) :
    minimax E d pos mx (-10000) 10000 = minimaxPlain E d pos mx := by
  obtain ⟨hlo, hhi⟩ := minimax_sandwich E d pos mx (-10000) 10000 (by norm_num)
  omega

/-- C1 counterexample: a concrete rules-engine instance and position where
the pruned search at the callers root bounds returns 10225 while the
exhaustive minimax value is 11125 — the first child is a checkmate worth at
least beta = 10000, the cutoff fires, and the better second child is never
searched.  The evaluator itself produces such values: checkmate adds 10050
on top of material. -/
theorem c1_counterexample :
    minimax CEx 1 0 true (-10000) 10000 = 10225 ∧
    minimaxPlain CEx 1 0 true = 11125 ∧
    minimax CEx 1 0 true (-10000) 10000 ≠ minimaxPlain CEx 1 0 true := by
  decide

theorem c1_witness :
    minimaxPlain CEx 1 3 true = -9999 ∧
    minimax CEx 1 3 true (-10000) 10000 = minimaxPlain CEx 1 3 true :=
  ⟨by decide, c1_alpha_beta_window_agreement CEx 1 3 true (by decide) (by decide)⟩

/-- C2: every move applied to the shared live position during the recursive
search is undone before the enclosing call returns, including on the pruning
break, so the position state (current position and undo history) equals its
pre-search state once the top-level search call completes. -/
theorem c2_search_restores_position {P M : Type} (E : RulesEngine P M)
    (d : Nat) (s : P × List P) (mx : Bool) (alpha beta : Int) :
    (minimaxS E d s mx alpha beta).2 = s := by
  induction d generalizing s mx alpha beta with
  | zero => rfl
  | succ d ih =>
    cases mx with
    | true =>
      exact goMaxS_state E _ (fun s' a b => ih s' false a b)
        (E.moves s.1) s (-9999) alpha beta
    | false =>
      exact goMinS_state E _ (fun s' a b => ih s' true a b)
        (E.moves s.1) s 9999 alpha beta

/-- C3: whenever the move selector returns a move — from the opening book or
from search — that move belongs to the rules engine's legal-move enumeration
for the position, given the engine's contract that a move applied by
algebraic notation is one of its own legal moves. -/
theorem c3_selected_move_is_legal {P M : Type} (E : RulesEngine P M)
    (D : Difficulty) (pos : P) (mc : Nat) (line : List String) (m : M)
    (hcontract : ∀ p s m', E.sanMove p s = some m' → m' ∈ E.moves p)
    (hsel : chooseMove E D pos mc line = some m) :
    m ∈ E.moves pos := by
  unfold chooseMove at hsel
  by_cases hg : (E.isGameOver pos || E.isDraw pos || (E.moves pos).isEmpty) = true
  · rw [if_pos hg] at hsel
    cases hsel
  · rw [if_neg hg] at hsel
    cases hbook : (if mc < line.length then
        E.sanMove pos (line.getD mc "") else none) with
    | some mb =>
      rw [hbook] at hsel
      have hmb : mb = m := Option.some.inj hsel
      by_cases hmc : mc < line.length
      · rw [if_pos hmc] at hbook
        exact hmb ▸ hcontract pos _ mb hbook
      · rw [if_neg hmc] at hbook
        cases hbook
    | none =>
      rw [hbook] at hsel
      have hsel' : (pickBest (rootScore E D pos) (E.moves pos)).1 = some m := hsel
      unfold pickBest at hsel'
      rcases pickBest_mem (rootScore E D pos) (E.moves pos)
          ((none : Option M), (-9999 : Int)) m hsel' with h' | h'
      · cases h'
      · exact h'

theorem c3_witness :
    chooseMove E3 Difficulty.easy 0 5 [] = some 1 ∧ 1 ∈ E3.moves 0 :=
  ⟨by decide, c3_selected_move_is_legal E3 Difficulty.easy 0 5 [] 1
    (by intro p s m' h; simp [E3] at h) (by decide)⟩

/-- C4: the source evaluator equals the spec's description — the sum over
occupied squares of pieceValue(type) times sign(color) plus the
pawn-only piece-square bonus indexed by file and rank-from-own-perspective
(table mirrored vertically for Black, signed like material), plus a flat +50
when in check and +10000 when checkmated, neither sign-adjusted, with a draw
contributing 0. -/
theorem c4_evaluator_matches_spec {P M : Type} (E : RulesEngine P M)
    (pos : P) :
    evaluateBoard E pos = evaluateSpec E pos := by
  unfold evaluateBoard evaluateSpec
  rw [nested_foldl_eq (fun i j => codeTerm (E.get pos i j) i j)
    (List.range 8) (List.range 8) 0]
  simp only [codeTerm_eq_specTerm]
  simp

/-- C5 (amended): when at least one root move scores at least the -9999
seed, the selector returns the last move of the enumeration attaining the
maximal aggregated score (the greater-or-equal replacement policy); the tie
hypothesis mirrors the claim's at-least-two-equal-maximal-moves setting.
Without the seed proviso the claim fails, see the counterexample. -/
theorem c5_tie_breaks_to_last {P M : Type} (E : RulesEngine P M)
    (D : Difficulty) (pos : P)
    (hone : ∃ m ∈ E.moves pos, -9999 ≤ rootScore E D pos m)
    (_htie : 2 ≤ ((E.moves pos).filter
      (fun m => decide (bestValue E D pos ≤ rootScore E D pos m))).length) :
    searchSelect E D pos
      = (E.moves pos).reverse.find?
          (fun m => decide (bestValue E D pos ≤ rootScore E D pos m)) := by
  unfold searchSelect pickBest bestValue
  exact pickBest_go_last (rootScore E D pos) (E.moves pos) none (-9999) hone

/-- C5 counterexample: a position with two legal moves of equal maximal
score -10400, where the selector returns no move at all instead of the last
tied move, because both scores fall below the -9999 seed of bestValue. -/
theorem c5_counterexample :
    (E5.moves 0).map (rootScore E5 Difficulty.easy 0) = [-10400, -10400] ∧
    E5.isGameOver 0 = false ∧ E5.isDraw 0 = false ∧
    chooseMove E5 Difficulty.easy 0 1 [] = none := by
  decide

theorem c5_witness :
    2 ≤ ((E5w.moves 0).filter
      (fun m => decide (bestValue E5w Difficulty.easy 0
        ≤ rootScore E5w Difficulty.easy 0 m))).length ∧
    searchSelect E5w Difficulty.easy 0
      = (E5w.moves 0).reverse.find?
          (fun m => decide (bestValue E5w Difficulty.easy 0
            ≤ rootScore E5w Difficulty.easy 0 m)) ∧
    searchSelect E5w Difficulty.easy 0 = some 2 :=
  ⟨by decide,
   c5_tie_breaks_to_last E5w Difficulty.easy 0 (by decide) (by decide),
   by decide⟩

/-- C6 (code bug): a position with exactly one legal move and the game not
over, where the selector returns no move at all — the single move's score
-10400 lies below the -9999 initialization of bestValue, so bestMove stays
null and makeAIMove plays nothing, contradicting the claim that the move is
returned regardless of its score. -/
theorem c6_single_move_dropped :
    (E6.moves 0).length = 1 ∧ E6.isGameOver 0 = false ∧
    E6.isDraw 0 = false ∧
    chooseMove E6 Difficulty.easy 0 1 [] = none := by
  decide

/-- C7 (code bug): a 9-piece position whose candidate move delivers
checkmate.  The aggregated root score 10965 contains the evaluator's +10000
checkmate term but not the +500 pattern bonus: the source hands
getEndgameBonus the position with the move already applied and re-applies
the move's algebraic notation there, which the rules engine rejects, so the
bonus is 0 instead of the at-least-500 the claim requires. -/
theorem c7_mate_bonus_dropped :
    countPieces E7 (E7.move 0 1) = 9 ∧
    E7.isCheckmate (E7.move 0 1) = true ∧
    getEndgameBonus E7 Difficulty.easy (E7.move 0 1) 1 = 0 ∧
    rootScore E7 Difficulty.easy 0 1 = 10965 := by
  decide

/-- C8: the endgame heuristic returns exactly 0 for every position whose
total piece count exceeds 10, for every candidate move. -/
theorem c8_bonus_zero_above_ten {P M : Type} (E : RulesEngine P M)
    (D : Difficulty) (pos : P) (mv : M)
    (h : 10 < countPieces E pos) :
    getEndgameBonus E D pos mv = 0 := by
  unfold getEndgameBonus
  rw [if_neg (not_le.mpr h)]

theorem c8_witness :
    10 < countPieces E5 1 ∧ getEndgameBonus E5 Difficulty.easy 1 1 = 0 :=
  ⟨by decide, c8_bonus_zero_above_ten E5 Difficulty.easy 1 1 (by decide)⟩

/-- C9: when the opening book supplies a move for the current move index but
the rules engine rejects it, the selector falls back to the search-based
selection for that same ply; no error escapes (the selector stays a total
function returning the search result). -/
theorem c9_illegal_book_falls_back {P M : Type} (E : RulesEngine P M)
    (D : Difficulty) (pos : P) (mc : Nat) (line : List String)
    (hgate : (E.isGameOver pos || E.isDraw pos || (E.moves pos).isEmpty)
      = false)
    (hmc : mc < line.length)
    (hrej : E.sanMove pos (line.getD mc "") = none) :
    chooseMove E D pos mc line = searchSelect E D pos := by
  unfold chooseMove
  rw [if_neg (show ¬((E.isGameOver pos || E.isDraw pos
      || (E.moves pos).isEmpty) = true) by simp [hgate])]
  rw [if_pos hmc, hrej]

theorem c9_witness :
    chooseMove E3 Difficulty.easy 0 0 ["e4"] = searchSelect E3 Difficulty.easy 0 ∧
    searchSelect E3 Difficulty.easy 0 = some 1 :=
  ⟨c9_illegal_book_falls_back E3 Difficulty.easy 0 0 ["e4"]
    (by decide) (by decide) rfl, by decide⟩

/-- C10: at depth at least 1, a position with zero legal moves makes the
recursive search return the sentinel -9999 when maximizing and 9999 when
minimizing — for every rules engine, hence independently of the evaluator
and its +10000 checkmate term, which is never applied there. -/
theorem c10_no_moves_sentinel {P M : Type} (E : RulesEngine P M)
    (pos : P) (d : Nat) (mx : Bool) (alpha beta : Int)
    (h : E.moves pos = []) :
    minimax E (d + 1) pos mx alpha beta = if mx then -9999 else 9999 := by
  cases mx with
  | true => simp [minimax, h, goMaxF]
  | false => simp [minimax, h, goMinF]

theorem c10_witness :
    E3.moves 1 = [] ∧ minimax E3 1 1 true (-10000) 10000 = -9999 :=
  ⟨by decide, by
    have h := c10_no_moves_sentinel E3 1 0 true (-10000) 10000 (by decide)
    simpa using h⟩
